import Mathlib

/-!
Shallow embedding of `bayesflow/models/joint_model.py` (class `JointModel`).

Modelling decisions, applied uniformly:
  * Python object identity (references, `is`, dict keys on objects) is modelled
    by natural-number ids into explicit heaps carried in a state record `St`.
  * `ConditionalDistribution` components are external collaborators; they are
    modelled as records carrying exactly the attributes the `JointModel` code
    reads plus the results of the external calls it makes.
  * Python dicts are association lists preserving insertion order; keyword
    argument dictionaries handed to external calls are lookup functions.
  * Tensor scalars are integers; `tf.reduce_sum (tf.pack l)` is `List.sum`.
  * Fallible steps (`assert`, `KeyError`, attribute access on `None`) return
    `Except Err`.
-/

/-- Tensor-like scalar values of the execution backend. -/
abbrev Val := Int

/-- Python exception kinds the embedded code can raise. -/
inductive Err : Type where
  | keyError : Err
  | assertionError : Err
  | attributeError : Err
  | notImplemented : Err
  | badRef : Err
deriving DecidableEq

/-- Association-list lookup, modelling `dict.__getitem__` as an `Option`. -/
def alistFind {α β : Type} [DecidableEq α] (l : List (α × β)) (k : α) : Option β :=
  (l.find? (fun p => decide (p.1 = k))).map (fun p => p.2)

/-- Association-list update, modelling `dict.__setitem__`: replace the entry in
place if the key is present, otherwise append (Python dicts keep insertion
order). -/
def alistSet {α β : Type} [DecidableEq α] (l : List (α × β)) (k : α) (v : β) :
    List (α × β) :=
  match l with
  | [] => [(k, v)]
  | p :: l => if p.1 = k then (k, v) :: l else p :: alistSet l k v

/-- Empty Python keyword-argument dictionary, as a lookup function. -/
def kwEmpty {β : Type} : String → Option β := fun _ => none

/-- Keyword-argument dictionary update, as a lookup function. -/
def kwSet {β : Type} (f : String → Option β) (k : String) (v : β) :
    String → Option β :=
  fun s => if s = k then some v else f s

/-- External `ConditionalDistribution` collaborator, as seen by `JointModel`:
its attributes (`name`, `model`, `inputs_random`, `inputs_nonrandom`,
`_sampled`, `_sampled_source`) together with the results of the external calls
the joint model makes (`_expected_logp`, `_parameterized_entropy_lower_bound`,
`_default_variational_model`).  A random input maps a parameter name to the id
of the supplying component, or `none` for a free input. -/
structure Component : Type where
  name : String
  model : Option Nat
  inputs_random : List (String × Option Nat)
  inputs_nonrandom : List (String × Val)
  sampled : Val
  sampled_source : List (Nat × Val)
  expected_logp : (String → Option Nat) → Val
  parameterized_entropy_lower_bound : (String → Option Val) → Val
  default_variational_model : Option Nat

/-- State of one `JointModel` object: the fields set up by `__init__`.  The
`_explicit_variational_model` cache stores the id of the cached model. -/
structure JointModel : Type where
  components : List Nat
  components_by_key : List (String × Nat)
  marginalizations : List (Nat × Nat)
  marginalizations_reverse : List (Nat × Nat)
  explicit_variational_model : Option Nat
  inputs_random : List ((Nat × String) × Option Nat)
  inputs_nonrandom : List ((Nat × String) × Val)
  name : String
deriving DecidableEq

/-- Global object store: heaps of components and of joint models plus a
fresh-id counter, modelling Python allocation and object identity. -/
structure St : Type where
  comps : List (Nat × Component)
  models : List (Nat × JointModel)
  nextId : Nat

/-- Dereference a component id (a dangling id is an embedding artifact). -/
def getComp (st : St) (cid : Nat) : Except Err Component :=
  match alistFind st.comps cid with
  | some c => .ok c
  | none => .error .badRef

/-- Overwrite a component record in the heap. -/
def setComp (st : St) (cid : Nat) (c : Component) : St :=
  { st with comps := alistSet st.comps cid c }

/-- Dereference a joint-model id. -/
def getModel (st : St) (mid : Nat) : Except Err JointModel :=
  match alistFind st.models mid with
  | some m => .ok m
  | none => .error .badRef

/-- Overwrite a joint-model record in the heap. -/
def setModel (st : St) (mid : Nat) (m : JointModel) : St :=
  { st with models := alistSet st.models mid m }

/-- Allocation of a fresh external component object. -/
def newComp (c : Component) (st : St) : Nat × St :=
  (st.nextId,
    { st with comps := alistSet st.comps st.nextId c, nextId := st.nextId + 1 })

/-- Deterministic stand-in for the fresh token `str(uuid.uuid4().hex)[:6]`. -/
def uuidHex (n : Nat) : String := "uuid" ++ toString n

/-- `JointModel.__init__`: allocate a fresh model with empty component list,
empty name lookup, empty marginalization maps, no cached variational model and
no registered free inputs. -/
def newJointModel (name : Option String) (st : St) : Nat × St :=
  let mid := st.nextId
  let nm :=
    match name with
    | some s => s
    | none => uuidHex mid
  let m : JointModel :=
    { components := [], components_by_key := [],
      marginalizations := [], marginalizations_reverse := [],
      explicit_variational_model := none,
      inputs_random := [], inputs_nonrandom := [], name := nm }
  (mid, { st with models := alistSet st.models mid m, nextId := mid + 1 })

/-- The free-input registration loop of `JointModel.extend`: every random input
of `d` whose supplier is not a member of the model (`None` included) is
recorded in the model's own `inputs_random` under the key `(d, param)`. -/
def register_free_inputs (dId : Nat) (l : List (String × Option Nat))
    (m : JointModel) : JointModel :=
  l.foldl
    (fun m pn =>
      match pn.2 with
      | none =>
        { m with inputs_random := alistSet m.inputs_random (dId, pn.1) none }
      | some nid =>
        if nid ∈ m.components then m
        else
          { m with
            inputs_random := alistSet m.inputs_random (dId, pn.1) (some nid) })
    m

/-- `JointModel.extend`: claim the component (`d.model = self`, with a failed
Python `assert` when it is owned by a different model), register its unresolved
random inputs as free inputs of the model, and append it to the ordered
component list. -/
def extend (mid : Nat) (dId : Nat) (st : St) : Except Err St := do
  let m ← getModel st mid
  let d ← getComp st dId
  let st ←
    match d.model with
    | none => pure (setComp st dId { d with model := some mid })
    | some owner =>
      if owner = mid then pure st else Except.error .assertionError
  let m := register_free_inputs dId d.inputs_random m
  let m := { m with components := m.components ++ [dId] }
  pure (setModel st mid m)

/-- `JointModel.variational_model`: on the first call build a fresh
`JointModel` and extend it with each value of `_explicit_marginalizations` in
insertion order, then cache it; later calls return the cached id with the state
untouched. -/
def variational_model (mid : Nat) (st : St) : Except Err (Nat × St) := do
  let m ← getModel st mid
  match m.explicit_variational_model with
  | some vmid => pure (vmid, st)
  | none => do
    let (vmid, st) := newJointModel none st
    let st ← m.marginalizations.foldlM (fun st p => extend vmid p.2 st) st
    let m ← getModel st mid
    pure (vmid, setModel st mid { m with explicit_variational_model := some vmid })

/-- `JointModel.marginalize`: resolve the variational distribution (the
variable's `_default_variational_model()` when none is given), then record it
in `_explicit_marginalizations` and the reverse map.  No membership or
double-marginalization check is performed. -/
def marginalize (mid : Nat) (varId : Nat) (qId : Option Nat) (st : St) :
    Except Err St := do
  let q ←
    match qId with
    | some q => pure q
    | none => do
      let v ← getComp st varId
      match v.default_variational_model with
      | some q => pure q
      | none => Except.error .notImplemented
  let m ← getModel st mid
  pure (setModel st mid
    { m with
      marginalizations := alistSet m.marginalizations varId q,
      marginalizations_reverse := alistSet m.marginalizations_reverse q varId })

/-- Modelled from the spec: `WrapperNode` is imported from `bayesflow.models`
and is not among the sources; per the spec it is a "trivial fixed-value
component used to mark data as observed", so it wraps the given value under the
given name, belongs to no model and has no inputs. -/
def wrapperNode (v : Val) (nm : String) : Component :=
  { name := nm, model := none, inputs_random := [], inputs_nonrandom := [],
    sampled := v, sampled_source := [],
    expected_logp := fun _ => 0,
    parameterized_entropy_lower_bound := fun _ => 0,
    default_variational_model := none }

/-- `JointModel.observe`: wrap the value in a `WrapperNode` named
`observed_` ++ the variable's name and marginalize the variable with it. -/
def observe (mid : Nat) (varId : Nat) (v : Val) (st : St) : Except Err St := do
  let mv ← getComp st varId
  let (qid, st) := newComp (wrapperNode v ("observed_" ++ mv.name)) st
  marginalize mid varId (some qid) st

/-- `JointModel.outputs`: the components whose key is absent from
`_explicit_marginalizations`, in component-list order.  A single pass over the
component list; no state is read beyond the model record and none is written. -/
def outputs (mid : Nat) (st : St) : Except Err (List Nat) := do
  let m ← getModel st mid
  pure (m.components.filter
    (fun cid => !(alistFind m.marginalizations cid).isSome))

/-- `JointModel._topo_sorted`: `extend` maintains topological order, so this is
the component list itself. -/
def topo_sorted (m : JointModel) : List Nat := m.components

/-- Keys of the mixed-type dictionary returned by `JointModel._sample`: the
`(self, param)` tuples for free-input values and `component.name` strings. -/
inductive SKey : Type where
  | inputKey : Nat → String → SKey
  | nameKey : String → SKey
deriving DecidableEq

/-- `JointModel._sample`: seed the value dictionary with the given free-input
values, then walk the components in topological order collecting each one's
symbolic sampled value and its base-randomness sources.  The deferred
`sample_all_sources` closure is modelled by the feed dictionary it returns. -/
def sample' (mid : Nat) (input_vals : List (String × Val)) (st : St) :
    Except Err (List (SKey × Val) × List (Nat × Val)) := do
  let m ← getModel st mid
  let init : List (SKey × Val) :=
    input_vals.map (fun pv => (SKey.inputKey mid pv.1, pv.2))
  (topo_sorted m).foldlM
    (fun (acc : List (SKey × Val) × List (Nat × Val)) cid => do
      let c ← getComp st cid
      let rs := c.sampled_source.foldl (fun rs pv => alistSet rs pv.1 pv.2) acc.2
      pure (alistSet acc.1 (SKey.nameKey c.name) c.sampled, rs))
    (init, [])

/-- Modelled from the spec: `ConditionalDistribution.inputs` belongs to the
external component contract (spec section 6) and is not among the sources; it
exposes the names of all input parameters of the component, random
(`inputs_random`) and fixed (`inputs_nonrandom`). -/
def Component.inputs (c : Component) : List String :=
  c.inputs_random.map Prod.fst ++ c.inputs_nonrandom.map Prod.fst

/-- One term of `JointModel._entropy_lower_bound`: the component's external
`_parameterized_entropy_lower_bound`, applied to the keyword dictionary mapping
each random-input parameter to its supplier's `_sampled` value (a free `None`
input makes the attribute access `sourcenode._sampled` raise). -/
def entropy_term (st : St) (cid : Nat) : Except Err Val := do
  let c ← getComp st cid
  let input_samples ← c.inputs_random.foldlM
    (fun (f : String → Option Val) pn => do
      match pn.2 with
      | none => Except.error .attributeError
      | some nid => do
        let srcC ← getComp st nid
        pure (kwSet f pn.1 srcC.sampled))
    kwEmpty
  pure (c.parameterized_entropy_lower_bound input_samples)

/-- `JointModel._entropy_lower_bound`: sum the per-component entropy terms over
the components in topological order. -/
def entropy_lower_bound (mid : Nat) (st : St) : Except Err Val := do
  let m ← getModel st mid
  let component_entropies ← (topo_sorted m).foldlM
    (fun acc cid => do
      let h ← entropy_term st cid
      pure (acc ++ [h]))
    ([] : List Val)
  pure component_entropies.sum

/-- One iteration of the `_logp` component loop: for each input parameter, look
up the marginalization of its upstream random supplier, where a `KeyError` from
either lookup (the parameter is not random, or the supplier — possibly `None` —
is not a key of `_explicit_marginalizations`) is caught and the parameter
skipped; then require this component's own marginalization as `q_result` and
ask the component for its expected log-probability. -/
def logp_term (st : St) (marg : List (Nat × Nat)) (cid : Nat) :
    Except Err Val := do
  let c ← getComp st cid
  let component_qs := c.inputs.foldl
    (fun qs param =>
      match alistFind c.inputs_random param with
      | none => qs
      | some none => qs
      | some (some nid) =>
        match alistFind marg nid with
        | none => qs
        | some q => kwSet qs ("q_" ++ param) q)
    kwEmpty
  match alistFind marg cid with
  | none => Except.error .keyError
  | some q => pure (c.expected_logp (kwSet component_qs ("q_result") q))

/-- `JointModel._logp`: obtain (building it if needed) the variational model,
sample it for the deferred base-randomness feed, take its entropy lower bound,
then sum the per-component expected log-probabilities and add the entropy.
Returns the bound with the deferred feed, plus the post-call state (the
variational-model cache may have been filled in). -/
def logp (mid : Nat) (st : St) :
    Except Err ((Val × List (Nat × Val)) × St) := do
  let (vmid, st) ← variational_model mid st
  let (_q_sample, stochastic_eps) ← sample' vmid [] st
  let q_entropy ← entropy_lower_bound vmid st
  let m ← getModel st mid
  let component_lps ← (topo_sorted m).foldlM
    (fun acc cid => do
      let expected_lp ← logp_term st m.marginalizations cid
      pure (acc ++ [expected_lp]))
    ([] : List Val)
  pure ((component_lps.sum + q_entropy, stochastic_eps), st)

/-- One user-driven construction step on a joint model, as the spec's
lifecycle describes it: `extend`, `marginalize` or `observe`. -/
inductive BuildOp : Type where
  | ext : Nat → BuildOp
  | marg : Nat → Option Nat → BuildOp
  | obs : Nat → Val → BuildOp
deriving DecidableEq

/-- Run one construction step against the model `mid`. -/
def runOp (mid : Nat) (st : St) : BuildOp → Except Err St
  | .ext cid => extend mid cid st
  | .marg vid q => marginalize mid vid q st
  | .obs vid v => observe mid vid v st

/-- Run a sequence of construction steps against the model `mid`. -/
def runOps (mid : Nat) : List BuildOp → St → Except Err St
  | [], st => .ok st
  | op :: ops, st => do runOps mid ops (← runOp mid st op)

/-- The variables a construction sequence passes to `marginalize` or
`observe`. -/
def margVars (ops : List BuildOp) : List Nat :=
  ops.filterMap (fun op =>
    match op with
    | .ext _ => none
    | .marg vid _ => some vid
    | .obs vid _ => some vid)

/-- Spec-side formula (spec section 4.8): the variational components collected
for one component — for each random input parameter, the variational component
currently marginalizing its upstream supplier, skipped when the input is free
or its supplier has no marginalization, plus the component's own
marginalization under `q_result`. -/
def claimed_qs (marg : List (Nat × Nat)) (c : Component) (own : Nat) :
    String → Option Nat :=
  kwSet
    (c.inputs_random.foldl
      (fun f pn =>
        match pn.2 with
        | none => f
        | some sup =>
          match alistFind marg sup with
          | none => f
          | some q => kwSet f ("q_" ++ pn.1) q)
      kwEmpty)
    ("q_result") own

/-- Spec-side formula: one component's expected log-probability under its
collected variational components. -/
def claimed_elp (marg : List (Nat × Nat)) (c : Component) (own : Nat) : Val :=
  c.expected_logp (claimed_qs marg c own)

/-- Spec-side formula (spec section 4.9): a component's parameterized entropy
lower bound evaluated on its random-input sampled values. -/
def claimed_entropy_term (st : St) (c : Component) : Val :=
  c.parameterized_entropy_lower_bound
    (c.inputs_random.foldl
      (fun f pn =>
        match pn.2.bind (fun nid => alistFind st.comps nid) with
        | none => f
        | some src => kwSet f pn.1 src.sampled)
      kwEmpty)

/-- Fallback state used to totalize concrete `Except` computations. -/
def stFail : St := { comps := [], models := [], nextId := 0 }

/-- Fallback model record used to totalize concrete `Except` computations. -/
def jmFail : JointModel :=
  { components := [], components_by_key := [], marginalizations := [],
    marginalizations_reverse := [], explicit_variational_model := none,
    inputs_random := [], inputs_nonrandom := [], name := "" }

/-- Project the state out of a concrete run, with a fallback on error. -/
def exceptSt (e : Except Err St) : St :=
  match e with
  | .ok s => s
  | .error _ => stFail

/-- Project the model out of a concrete lookup, with a fallback on error. -/
def exceptJM (e : Except Err JointModel) : JointModel :=
  match e with
  | .ok m => m
  | .error _ => jmFail

/-- Project the result of `variational_model`, with a fallback on error. -/
def exVM (e : Except Err (Nat × St)) : Nat × St :=
  match e with
  | .ok p => p
  | .error _ => (0, stFail)

/-- Success test on an `Except` computation. -/
def exIsOk {α : Type} : Except Err α → Bool
  | .ok _ => true
  | .error _ => false

/-- Plain external component with the given name: no owner, no inputs, zero
sampled value and constant external call results. -/
def simpleComp (nm : String) : Component :=
  { name := nm, model := none, inputs_random := [], inputs_nonrandom := [],
    sampled := 0, sampled_source := [],
    expected_logp := fun _ => 0,
    parameterized_entropy_lower_bound := fun _ => 0,
    default_variational_model := none }

/-- Fresh empty joint-model record with the given name. -/
def emptyJM (nm : String) : JointModel :=
  { components := [], components_by_key := [], marginalizations := [],
    marginalizations_reverse := [], explicit_variational_model := none,
    inputs_random := [], inputs_nonrandom := [], name := nm }

/-! Basic lemmas about the embedding's dictionaries, heaps and `Except`. -/

@[simp]
theorem exBind_ok {α β : Type} (a : α) (f : α → Except Err β) :
    (Except.ok a >>= f) = f a := rfl

@[simp]
theorem exBind_error {α β : Type} (e : Err) (f : α → Except Err β) :
    ((Except.error e : Except Err α) >>= f) = Except.error e := rfl

@[simp]
theorem exPure {α : Type} (a : α) : (pure a : Except Err α) = Except.ok a := rfl

theorem alistFind_nil {α β : Type} [DecidableEq α] (k : α) :
    alistFind ([] : List (α × β)) k = none := rfl

theorem alistFind_cons {α β : Type} [DecidableEq α] (p : α × β)
    (l : List (α × β)) (k : α) :
    alistFind (p :: l) k = if p.1 = k then some p.2 else alistFind l k := by
  by_cases h : p.1 = k <;> simp [alistFind, List.find?, h]

theorem alistFind_set_self {α β : Type} [DecidableEq α] (l : List (α × β))
    (k : α) (v : β) : alistFind (alistSet l k v) k = some v := by
  induction l with
  | nil => simp [alistSet, alistFind_cons]
  | cons p l ih =>
    by_cases h : p.1 = k
    · simp [alistSet, h, alistFind_cons]
    · simp [alistSet, h, alistFind_cons, ih]

theorem alistFind_set_ne {α β : Type} [DecidableEq α] (l : List (α × β))
    (k j : α) (v : β) (h : j ≠ k) :
    alistFind (alistSet l k v) j = alistFind l j := by
  have hkj : ¬(k = j) := fun h' => h h'.symm
  induction l with
  | nil => simp [alistSet, alistFind_cons, alistFind_nil, hkj]
  | cons p l ih =>
    by_cases hp : p.1 = k
    · subst hp
      simp [alistSet, alistFind_cons, hkj]
    · simp [alistSet, hp, alistFind_cons, ih]

theorem alistFind_set_isSome {α β : Type} [DecidableEq α] (l : List (α × β))
    (k j : α) (v : β) :
    (alistFind (alistSet l k v) j).isSome = true ↔
      j = k ∨ (alistFind l j).isSome = true := by
  by_cases h : j = k
  · subst h; simp [alistFind_set_self]
  · rw [alistFind_set_ne l k j v h]; simp [h]

theorem alistFind_eq_none_of_not_mem {α β : Type} [DecidableEq α]
    (l : List (α × β)) (k : α) (h : k ∉ l.map Prod.fst) :
    alistFind l k = none := by
  induction l with
  | nil => rfl
  | cons p l ih =>
    simp only [List.map_cons, List.mem_cons] at h
    push_neg at h
    rw [alistFind_cons, if_neg (fun hp => h.1 hp.symm)]
    exact ih h.2

theorem getModel_setModel_self (st : St) (mid : Nat) (m : JointModel) :
    getModel (setModel st mid m) mid = .ok m := by
  simp [getModel, setModel, alistFind_set_self]

theorem getModel_setModel_ne (st : St) (mid j : Nat) (m : JointModel)
    (h : j ≠ mid) : getModel (setModel st mid m) j = getModel st j := by
  simp [getModel, setModel, alistFind_set_ne _ _ _ _ h]

theorem getModel_setComp (st : St) (cid : Nat) (c : Component) (j : Nat) :
    getModel (setComp st cid c) j = getModel st j := rfl

theorem getComp_setModel (st : St) (mid : Nat) (m : JointModel) (j : Nat) :
    getComp (setModel st mid m) j = getComp st j := rfl

theorem getComp_setComp_self (st : St) (cid : Nat) (c : Component) :
    getComp (setComp st cid c) cid = .ok c := by
  simp [getComp, setComp, alistFind_set_self]

theorem getComp_setComp_ne (st : St) (cid j : Nat) (c : Component)
    (h : j ≠ cid) : getComp (setComp st cid c) j = getComp st j := by
  simp [getComp, setComp, alistFind_set_ne _ _ _ _ h]

theorem getModel_newComp (c : Component) (st : St) (j : Nat) :
    getModel (newComp c st).2 j = getModel st j := rfl

/-! Lemmas about the list-collecting `foldlM` loops of the embedding. -/

theorem foldlM_app_ok {α β : Type} (f : α → Except Err β) (g : α → β) :
    ∀ (l : List α), (∀ a ∈ l, f a = .ok (g a)) → ∀ (acc : List β),
      (l.foldlM (fun acc a => do
        let v ← f a
        pure (acc ++ [v])) acc) = .ok (acc ++ l.map g) := by
  intro l
  induction l with
  | nil => intro _ acc; simp [List.foldlM]
  | cons a l ih =>
    intro h acc
    have ha : f a = .ok (g a) := h a (List.mem_cons_self a l)
    have hl : ∀ b ∈ l, f b = .ok (g b) := fun b hb => h b (List.mem_cons_of_mem a hb)
    simp only [List.foldlM, ha, exBind_ok, pure_bind]
    rw [ih hl (acc ++ [g a])]
    simp

theorem foldlM_app_isOk {α β : Type} (f : α → Except Err β) :
    ∀ (l : List α) (acc : List β),
      exIsOk (l.foldlM (fun acc a => do
        let v ← f a
        pure (acc ++ [v])) acc) = true ↔ ∀ a ∈ l, exIsOk (f a) = true := by
  intro l
  induction l with
  | nil => intro acc; simp [List.foldlM, exIsOk]
  | cons a l ih =>
    intro acc
    cases ha : f a with
    | ok v =>
      simp only [List.foldlM, ha, exBind_ok, pure_bind]
      rw [ih (acc ++ [v])]
      constructor
      · intro h b hb
        rcases List.mem_cons.mp hb with hb | hb
        · subst hb; simp [ha, exIsOk]
        · exact h b hb
      · intro h b hb
        exact h b (List.mem_cons_of_mem a hb)
    | error e =>
      simp only [List.foldlM, ha, exBind_error]
      constructor
      · intro h; simp [exIsOk] at h
      · intro h
        have := h a (List.mem_cons_self a l)
        simp [ha, exIsOk] at this

theorem foldlM_app_error {α β : Type} (f : α → Except Err β) (e : Err) :
    ∀ (l : List α),
      (∀ a ∈ l, ∀ e', f a = .error e' → e' = e) →
      (¬ ∀ a ∈ l, exIsOk (f a) = true) → ∀ (acc : List β),
      (l.foldlM (fun acc a => do
        let v ← f a
        pure (acc ++ [v])) acc) = .error e := by
  intro l
  induction l with
  | nil => intro _ hex _; exact absurd (by intro a ha; cases ha) hex
  | cons a l ih =>
    intro hall hex acc
    cases ha : f a with
    | ok v =>
      simp only [List.foldlM, ha, exBind_ok, pure_bind]
      refine ih (fun b hb => hall b (List.mem_cons_of_mem a hb)) ?_ (acc ++ [v])
      intro hok
      exact hex (fun b hb => by
        rcases List.mem_cons.mp hb with hb | hb
        · subst hb; simp [ha, exIsOk]
        · exact hok b hb)
    | error e' =>
      have : e' = e := hall a (List.mem_cons_self a l) e' ha
      subst this
      simp [List.foldlM, ha]

theorem foldlM_step_ok {σ α : Type} (step : σ → α → Except Err σ) :
    ∀ (l : List α), (∀ s a, a ∈ l → exIsOk (step s a) = true) → ∀ (init : σ),
      exIsOk (l.foldlM step init) = true := by
  intro l
  induction l with
  | nil => intro _ init; simp [List.foldlM, exIsOk]
  | cons a l ih =>
    intro h init
    cases ha : step init a with
    | ok s' =>
      simp only [List.foldlM, ha, exBind_ok]
      exact ih (fun s b hb => h s b (List.mem_cons_of_mem a hb)) s'
    | error e =>
      have := h init a (List.mem_cons_self a l)
      simp [ha, exIsOk] at this

/-! Effect lemmas for the construction operations. -/

theorem register_free_inputs_fields (dId : Nat) :
    ∀ (l : List (String × Option Nat)) (m : JointModel),
      (register_free_inputs dId l m).components = m.components ∧
      (register_free_inputs dId l m).components_by_key = m.components_by_key ∧
      (register_free_inputs dId l m).marginalizations = m.marginalizations ∧
      (register_free_inputs dId l m).marginalizations_reverse =
        m.marginalizations_reverse ∧
      (register_free_inputs dId l m).explicit_variational_model =
        m.explicit_variational_model ∧
      (register_free_inputs dId l m).inputs_nonrandom = m.inputs_nonrandom ∧
      (register_free_inputs dId l m).name = m.name := by
  intro l
  induction l with
  | nil => intro m; simp [register_free_inputs]
  | cons pn l ih =>
    intro m
    have step :
        register_free_inputs dId (pn :: l) m =
          register_free_inputs dId l
            (match pn.2 with
             | none =>
               { m with
                 inputs_random := alistSet m.inputs_random (dId, pn.1) none }
             | some nid =>
               if nid ∈ m.components then m
               else
                 { m with
                   inputs_random :=
                     alistSet m.inputs_random (dId, pn.1) (some nid) }) := by
      simp [register_free_inputs]
    rw [step]
    rcases pn with ⟨p, node⟩
    cases node with
    | none => simpa using ih _
    | some nid =>
      by_cases hmem : nid ∈ m.components
      · simpa [hmem] using ih m
      · simpa [hmem] using ih _

/-- Fully evaluated form of a successful `extend` whose component is already
owned by this model. -/
theorem extend_owned_eq (mid dId : Nat) (st : St) (m : JointModel)
    (d : Component) (hm : getModel st mid = .ok m) (hd : getComp st dId = .ok d)
    (hown : d.model = some mid) :
    extend mid dId st = .ok (setModel st mid
      { register_free_inputs dId d.inputs_random m with
        components := (register_free_inputs dId d.inputs_random m).components
          ++ [dId] }) := by
  simp [extend, hm, hd, hown]

/-- Fully evaluated form of a successful `extend` whose component is not yet
owned by any model. -/
theorem extend_unowned_eq (mid dId : Nat) (st : St) (m : JointModel)
    (d : Component) (hm : getModel st mid = .ok m) (hd : getComp st dId = .ok d)
    (hown : d.model = none) :
    extend mid dId st = .ok
      (setModel (setComp st dId { d with model := some mid }) mid
        { register_free_inputs dId d.inputs_random m with
          components := (register_free_inputs dId d.inputs_random m).components
            ++ [dId] }) := by
  simp [extend, hm, hd, hown]

/-- Inversion for a successful `extend`: the pre-states it can come from and the
exact post-state. -/
theorem extend_ok_elim (mid dId : Nat) (st st' : St)
    (h : extend mid dId st = .ok st') :
    ∃ m d st1, getModel st mid = .ok m ∧ getComp st dId = .ok d ∧
      ((d.model = none ∧ st1 = setComp st dId { d with model := some mid }) ∨
        (d.model = some mid ∧ st1 = st)) ∧
      st' = setModel st1 mid
        { register_free_inputs dId d.inputs_random m with
          components := (register_free_inputs dId d.inputs_random m).components
            ++ [dId] } := by
  cases hm : getModel st mid with
  | error e => simp [extend, hm] at h
  | ok m =>
    cases hd : getComp st dId with
    | error e => simp [extend, hm, hd] at h
    | ok d =>
      cases hown : d.model with
      | none =>
        rw [extend_unowned_eq mid dId st m d hm hd hown] at h
        exact ⟨m, d, setComp st dId { d with model := some mid }, rfl, rfl,
          Or.inl ⟨hown, rfl⟩, (Except.ok.inj h).symm⟩
      | some owner =>
        by_cases howner : owner = mid
        · rw [howner] at hown
          rw [extend_owned_eq mid dId st m d hm hd hown] at h
          exact ⟨m, d, st, rfl, rfl, Or.inr ⟨hown, rfl⟩, (Except.ok.inj h).symm⟩
        · simp [extend, hm, hd, hown, howner] at h

/-- Fully evaluated form of `marginalize` with an explicit variational
component: it always succeeds when the model id is live. -/
theorem marginalize_some_eq (mid varId qid : Nat) (st : St) (m : JointModel)
    (hm : getModel st mid = .ok m) :
    marginalize mid varId (some qid) st = .ok (setModel st mid
      { m with
        marginalizations := alistSet m.marginalizations varId qid,
        marginalizations_reverse :=
          alistSet m.marginalizations_reverse qid varId }) := by
  simp [marginalize, hm]

/-- Inversion for a successful `marginalize`: some variational component id got
recorded in both maps and nothing else changed. -/
theorem marginalize_ok_elim (mid varId : Nat) (qId : Option Nat) (st st' : St)
    (h : marginalize mid varId qId st = .ok st') :
    ∃ q m, getModel st mid = .ok m ∧
      st' = setModel st mid
        { m with
          marginalizations := alistSet m.marginalizations varId q,
          marginalizations_reverse :=
            alistSet m.marginalizations_reverse q varId } := by
  cases qId with
  | some q =>
    cases hm : getModel st mid with
    | error e => simp [marginalize, hm] at h
    | ok m =>
      rw [marginalize_some_eq mid varId q st m hm] at h
      exact ⟨q, m, rfl, (Except.ok.inj h).symm⟩
  | none =>
    cases hv : getComp st varId with
    | error e => simp [marginalize, hv] at h
    | ok v =>
      cases hq : v.default_variational_model with
      | none => simp [marginalize, hv, hq] at h
      | some q =>
        cases hm : getModel st mid with
        | error e => simp [marginalize, hv, hq, hm] at h
        | ok m =>
          refine ⟨q, m, rfl, ?_⟩
          simp only [marginalize, hv, hq, hm, exBind_ok, exPure] at h
          exact (Except.ok.inj h).symm

/-- Inversion for a successful `observe`: it allocates the wrapper node and then
behaves as `marginalize` with it. -/
theorem observe_ok_elim (mid varId : Nat) (v : Val) (st st' : St)
    (h : observe mid varId v st = .ok st') :
    ∃ mv st1, getComp st varId = .ok mv ∧
      st1 = (newComp (wrapperNode v ("observed_" ++ mv.name)) st).2 ∧
      st1.models = st.models ∧
      marginalize mid varId
        (some (newComp (wrapperNode v ("observed_" ++ mv.name)) st).1) st1 =
        .ok st' := by
  cases hv : getComp st varId with
  | error e => simp [observe, hv] at h
  | ok mv =>
    refine ⟨mv, (newComp (wrapperNode v ("observed_" ++ mv.name)) st).2, rfl,
      rfl, rfl, ?_⟩
    simpa [observe, hv] using h

/-- One construction step changes the marginalization key set of the model by
exactly the variables that step marginalizes or observes. -/
theorem runOp_margKeys (mid : Nat) (st : St) (op : BuildOp) (st' : St)
    (h : runOp mid st op = .ok st') (m : JointModel)
    (hm : getModel st mid = .ok m) :
    ∃ m', getModel st' mid = .ok m' ∧
      ∀ v, ((alistFind m'.marginalizations v).isSome = true ↔
        ((alistFind m.marginalizations v).isSome = true ∨ v ∈ margVars [op])) := by
  cases op with
  | ext cid =>
    obtain ⟨m0, d, st1, hm0, _, _, hst'⟩ := extend_ok_elim mid cid st st' h
    have hmm : m0 = m := by
      rw [hm] at hm0; exact (Except.ok.inj hm0).symm
    subst hmm
    subst hst'
    refine ⟨_, getModel_setModel_self _ _ _, ?_⟩
    intro v
    have hfields := (register_free_inputs_fields cid d.inputs_random m0).2.2.1
    simp [margVars, List.filterMap, hfields]
  | marg vid q =>
    obtain ⟨qr, m0, hm0, hst'⟩ := marginalize_ok_elim mid vid q st st' h
    have hmm : m0 = m := by
      rw [hm] at hm0; exact (Except.ok.inj hm0).symm
    subst hmm
    subst hst'
    refine ⟨_, getModel_setModel_self _ _ _, ?_⟩
    intro v
    simp only [alistFind_set_isSome, margVars, List.filterMap]
    constructor
    · rintro (rfl | hv)
      · simp
      · exact Or.inl hv
    · rintro (hv | hv)
      · exact Or.inr hv
      · simp at hv
        exact Or.inl hv
  | obs vid val =>
    obtain ⟨mv, st1, _, hst1, hmodels, hmarg⟩ := observe_ok_elim mid vid val st st' h
    obtain ⟨qr, m0, hm0, hst'⟩ := marginalize_ok_elim _ _ _ _ _ hmarg
    have hm0' : getModel st1 mid = .ok m := by
      simp only [getModel, hmodels]
      simpa [getModel] using hm
    have hmm : m0 = m := by
      rw [hm0'] at hm0; exact (Except.ok.inj hm0).symm
    subst hmm
    subst hst'
    refine ⟨_, getModel_setModel_self _ _ _, ?_⟩
    intro v
    simp only [alistFind_set_isSome, margVars, List.filterMap]
    constructor
    · rintro (rfl | hv)
      · simp
      · exact Or.inl hv
    · rintro (hv | hv)
      · exact Or.inr hv
      · simp at hv
        exact Or.inl hv

/-- Over a whole construction sequence, the marginalization key set of the
model is the initial key set plus exactly the marginalized/observed
variables. -/
theorem runOps_margKeys (mid : Nat) :
    ∀ (ops : List BuildOp) (st st' : St) (m : JointModel),
      runOps mid ops st = .ok st' → getModel st mid = .ok m →
      ∃ m', getModel st' mid = .ok m' ∧
        ∀ v, ((alistFind m'.marginalizations v).isSome = true ↔
          ((alistFind m.marginalizations v).isSome = true ∨ v ∈ margVars ops)) := by
  intro ops
  induction ops with
  | nil =>
    intro st st' m h hm
    have hst : st = st' := Except.ok.inj h
    subst hst
    exact ⟨m, hm, fun v => by simp [margVars]⟩
  | cons op ops ih =>
    intro st st' m h hm
    cases hop : runOp mid st op with
    | error e => simp [runOps, hop] at h
    | ok st1 =>
      have h2 : runOps mid ops st1 = .ok st' := by simpa [runOps, hop] using h
      obtain ⟨m1, hm1, hkeys1⟩ := runOp_margKeys mid st op st1 hop m hm
      obtain ⟨m', hm', hkeys⟩ := ih st1 st' m1 h2 hm1
      refine ⟨m', hm', ?_⟩
      intro v
      rw [hkeys v, hkeys1 v]
      cases op <;> simp [margVars, List.filterMap] <;> tauto

/-- C2: for every `JointModel` built by any sequence of `extend`,
`marginalize` and `observe` calls starting from an empty marginalization map,
`outputs()` returns exactly the components of the model that were never passed
to `marginalize` or `observe`, in component-list order.  The embedded
`outputs` is a pure query (it returns no state) computed by a single filter
pass over the component list. -/
theorem c2_outputs_never_marginalized (mid : Nat) (st st' : St)
    (ops : List BuildOp) (m m' : JointModel)
    (hm : getModel st mid = .ok m)
    (hfresh : m.marginalizations = [])
    (hrun : runOps mid ops st = .ok st')
    (hm' : getModel st' mid = .ok m') :
    outputs mid st' =
      .ok (m'.components.filter (fun cid => !decide (cid ∈ margVars ops))) := by
  obtain ⟨m'', hm'', hkeys⟩ := runOps_margKeys mid ops st st' m hrun hm
  have hmm : m'' = m' := by
    rw [hm'] at hm''; exact (Except.ok.inj hm'').symm
  subst hmm
  simp only [outputs, hm'', exBind_ok, exPure]
  congr 1
  apply List.filter_congr
  intro cid _
  have h1 := hkeys cid
  rw [hfresh] at h1
  simp only [alistFind_nil, Option.isSome_none, Bool.false_eq_true, false_or] at h1
  by_cases hmem : cid ∈ margVars ops
  · simp [hmem, h1.mpr hmem]
  · have hns : ¬(alistFind m''.marginalizations cid).isSome = true :=
      fun hs => hmem (h1.mp hs)
    simp [hmem, hns]

/-- Concrete construction scenario for exercising the outputs query: three
model components, one custom variational component, one observed value. -/
def c2_st0 : St :=
  { comps := [(1, simpleComp ("A")), (2, simpleComp ("B")),
              (5, simpleComp ("C")), (3, simpleComp ("qA"))],
    models := [(0, emptyJM ("m"))], nextId := 6 }

/-- Concrete construction sequence: extend three components, marginalize one,
observe another. -/
def c2_ops : List BuildOp :=
  [.ext 1, .ext 2, .ext 5, .marg 1 (some 3), .obs 2 7]

/-- State after running the concrete construction sequence. -/
def c2_st1 : St := exceptSt (runOps 0 c2_ops c2_st0)

theorem c2_witness :
    outputs 0 c2_st1 =
      .ok ((exceptJM (getModel c2_st1 0)).components.filter
        (fun cid => !decide (cid ∈ margVars c2_ops))) :=
  c2_outputs_never_marginalized 0 c2_st0 c2_st1 c2_ops (emptyJM ("m"))
    (exceptJM (getModel c2_st1 0)) (by rfl) (by rfl) (by rfl) (by rfl)

/-- C9: `marginalize` mutates only the marginalization map and its reverse
map — the component heap, the fresh-id counter, every other model in the model
heap (in particular any previously built cached variational model instance),
and the model's own component list, name lookup, free-input maps and
variational-model cache field are all unchanged. -/
theorem c9_marginalize_frame (mid varId : Nat) (qId : Option Nat) (st st' : St)
    (m m' : JointModel)
    (hm : getModel st mid = .ok m)
    (hrun : marginalize mid varId qId st = .ok st')
    (hm' : getModel st' mid = .ok m') :
    st'.comps = st.comps ∧ st'.nextId = st.nextId ∧
    (∀ k, k ≠ mid → alistFind st'.models k = alistFind st.models k) ∧
    m'.components = m.components ∧
    m'.components_by_key = m.components_by_key ∧
    m'.inputs_random = m.inputs_random ∧
    m'.inputs_nonrandom = m.inputs_nonrandom ∧
    m'.explicit_variational_model = m.explicit_variational_model ∧
    m'.name = m.name ∧
    ∃ q, m'.marginalizations = alistSet m.marginalizations varId q ∧
      m'.marginalizations_reverse = alistSet m.marginalizations_reverse q varId := by
  obtain ⟨q, m0, hm0, hst'⟩ := marginalize_ok_elim mid varId qId st st' hrun
  have hmm : m0 = m := by rw [hm] at hm0; exact (Except.ok.inj hm0).symm
  subst hmm
  subst hst'
  rw [getModel_setModel_self] at hm'
  have hrec := (Except.ok.inj hm').symm
  subst hrec
  refine ⟨rfl, rfl, ?_, rfl, rfl, rfl, rfl, rfl, rfl, q, rfl, rfl⟩
  intro k hk
  exact alistFind_set_ne st.models mid k _ hk

/-- Concrete state for exercising the marginalize frame property. -/
def c9_st0 : St :=
  { comps := [(1, simpleComp ("A")), (2, simpleComp ("qA"))],
    models := [(0, emptyJM ("m"))], nextId := 3 }

/-- State after the concrete marginalize call. -/
def c9_st1 : St := exceptSt (marginalize 0 1 (some 2) c9_st0)

theorem c9_witness :
    c9_st1.comps = c9_st0.comps ∧ c9_st1.nextId = c9_st0.nextId ∧
    (∀ k, k ≠ 0 → alistFind c9_st1.models k = alistFind c9_st0.models k) ∧
    (exceptJM (getModel c9_st1 0)).components = (emptyJM ("m")).components ∧
    (exceptJM (getModel c9_st1 0)).components_by_key =
      (emptyJM ("m")).components_by_key ∧
    (exceptJM (getModel c9_st1 0)).inputs_random =
      (emptyJM ("m")).inputs_random ∧
    (exceptJM (getModel c9_st1 0)).inputs_nonrandom =
      (emptyJM ("m")).inputs_nonrandom ∧
    (exceptJM (getModel c9_st1 0)).explicit_variational_model =
      (emptyJM ("m")).explicit_variational_model ∧
    (exceptJM (getModel c9_st1 0)).name = (emptyJM ("m")).name ∧
    ∃ q, (exceptJM (getModel c9_st1 0)).marginalizations =
        alistSet (emptyJM ("m")).marginalizations 1 q ∧
      (exceptJM (getModel c9_st1 0)).marginalizations_reverse =
        alistSet (emptyJM ("m")).marginalizations_reverse q 1 :=
  c9_marginalize_frame 0 1 (some 2) c9_st0 c9_st1 (emptyJM ("m"))
    (exceptJM (getModel c9_st1 0)) (by rfl) (by rfl) (by rfl)

/-- Concrete model state for the marginalize error-handling claims: one model
owning component 1, with components 2 and 3 available as variational
distributions. -/
def c4_st0 : St :=
  { comps := [(1, simpleComp ("A")), (2, simpleComp ("qA")),
              (3, simpleComp ("qB"))],
    models := [(0, emptyJM ("m"))], nextId := 4 }

/-- The model after extending component 1. -/
def c4_st1 : St := exceptSt (extend 0 1 c4_st0)

/-- C4 counterexample: marginalizing variable 1 twice succeeds — the second
call silently overwrites the first marginalization (the map ends at `some 3`,
not an error) — and marginalizing id 99, which is not a component of the
model, also succeeds.  The claimed construction errors never occur. -/
theorem c4_counterexample :
    exIsOk (marginalize 0 1 (some 3)
      (exceptSt (marginalize 0 1 (some 2) c4_st1))) = true ∧
    alistFind (exceptJM (getModel (exceptSt (marginalize 0 1 (some 3)
      (exceptSt (marginalize 0 1 (some 2) c4_st1)))) 0)).marginalizations 1 =
      some 3 ∧
    exIsOk (marginalize 0 99 (some 2) c4_st1) = true := by decide

/-- C4 (amended): `marginalize` with an explicit variational component performs
no membership or double-marginalization check — on any live model it succeeds
for any variable id, recording (and on repetition overwriting) the entry for
that variable in the marginalization map. -/
theorem c4_marginalize_unchecked (mid varId qid : Nat) (st : St)
    (m : JointModel) (hm : getModel st mid = .ok m) :
    ∃ st', marginalize mid varId (some qid) st = .ok st' ∧
      ∃ m', getModel st' mid = .ok m' ∧
        alistFind m'.marginalizations varId = some qid :=
  ⟨_, marginalize_some_eq mid varId qid st m hm, _,
    getModel_setModel_self _ _ _, alistFind_set_self _ _ _⟩

theorem c4_witness :
    ∃ st', marginalize 0 1 (some 2) c4_st1 = .ok st' ∧
      ∃ m', getModel st' 0 = .ok m' ∧
        alistFind m'.marginalizations 1 = some 2 :=
  c4_marginalize_unchecked 0 1 2 c4_st1 (exceptJM (getModel c4_st1 0)) (by rfl)

/-- Extensionality of the free-input registration on re-extension: when every
random input of the component either resolves to a member of the model or is
already registered with the same value, the free-input map is pointwise
unchanged. -/
theorem register_free_inputs_find (dId : Nat) :
    ∀ (l : List (String × Option Nat)) (m : JointModel),
      (∀ pn ∈ l, (∃ nid, pn.2 = some nid ∧ nid ∈ m.components) ∨
        alistFind m.inputs_random (dId, pn.1) = some pn.2) →
      ∀ k, alistFind (register_free_inputs dId l m).inputs_random k =
        alistFind m.inputs_random k := by
  intro l
  induction l with
  | nil => intro m _ k; rfl
  | cons pn l ih =>
    intro m hreg k
    have step :
        register_free_inputs dId (pn :: l) m =
          register_free_inputs dId l
            (match pn.2 with
             | none =>
               { m with
                 inputs_random := alistSet m.inputs_random (dId, pn.1) none }
             | some nid =>
               if nid ∈ m.components then m
               else
                 { m with
                   inputs_random :=
                     alistSet m.inputs_random (dId, pn.1) (some nid) }) := by
      simp [register_free_inputs]
    rcases hstep : pn.2 with _ | nid
    · have hval : alistFind m.inputs_random (dId, pn.1) = some none := by
        rcases hreg pn (List.mem_cons_self pn l) with ⟨nid, h1, _⟩ | h1
        · rw [hstep] at h1; cases h1
        · rw [hstep] at h1; exact h1
      have hk1 : ∀ j, alistFind (alistSet m.inputs_random (dId, pn.1) none) j =
          alistFind m.inputs_random j := by
        intro j
        by_cases hj : j = (dId, pn.1)
        · subst hj; rw [alistFind_set_self, hval]
        · exact alistFind_set_ne _ _ _ _ hj
      rw [step, hstep]
      have hreg' : ∀ pn' ∈ l,
          (∃ nid, pn'.2 = some nid ∧ nid ∈
            ({ m with inputs_random := alistSet m.inputs_random (dId, pn.1) none }
              : JointModel).components) ∨
          alistFind ({ m with
              inputs_random := alistSet m.inputs_random (dId, pn.1) none }
            : JointModel).inputs_random (dId, pn'.1) = some pn'.2 := by
        intro pn' hpn'
        rcases hreg pn' (List.mem_cons_of_mem pn hpn') with h | h
        · exact Or.inl h
        · exact Or.inr (by rw [hk1]; exact h)
      rw [ih _ hreg' k]
      exact hk1 k
    · by_cases hmem : nid ∈ m.components
      · rw [step, hstep]
        simp only [hmem, if_true]
        exact ih m (fun pn' hpn' => hreg pn' (List.mem_cons_of_mem pn hpn')) k
      · have hval : alistFind m.inputs_random (dId, pn.1) = some (some nid) := by
          rcases hreg pn (List.mem_cons_self pn l) with ⟨nid', h1, h2⟩ | h1
          · rw [hstep] at h1
            cases h1
            exact absurd h2 hmem
          · rw [hstep] at h1; exact h1
        have hk1 : ∀ j,
            alistFind (alistSet m.inputs_random (dId, pn.1) (some nid)) j =
              alistFind m.inputs_random j := by
          intro j
          by_cases hj : j = (dId, pn.1)
          · subst hj; rw [alistFind_set_self, hval]
          · exact alistFind_set_ne _ _ _ _ hj
        rw [step, hstep]
        simp only [hmem, if_false]
        have hreg' : ∀ pn' ∈ l,
            (∃ nid', pn'.2 = some nid' ∧ nid' ∈
              ({ m with
                  inputs_random := alistSet m.inputs_random (dId, pn.1) (some nid) }
                : JointModel).components) ∨
            alistFind ({ m with
                inputs_random := alistSet m.inputs_random (dId, pn.1) (some nid) }
              : JointModel).inputs_random (dId, pn'.1) = some pn'.2 := by
          intro pn' hpn'
          rcases hreg pn' (List.mem_cons_of_mem pn hpn') with h | h
          · exact Or.inl h
          · exact Or.inr (by rw [hk1]; exact h)
        rw [ih _ hreg' k]
        exact hk1 k

/-- Concrete model state for the re-extension claim: one model, one component
already allocated. -/
def c5_st0 : St :=
  { comps := [(1, simpleComp ("d"))],
    models := [(0, emptyJM ("m"))], nextId := 2 }

/-- C5 counterexample: extending the same attached component a second time is
not a no-op — the ownership assertion passes, but the component is appended to
the component list again, leaving a duplicate entry. -/
theorem c5_counterexample :
    (exceptJM (getModel (exceptSt (extend 0 1 c5_st0)) 0)).components = [1] ∧
    (exceptJM (getModel
      (exceptSt (extend 0 1 (exceptSt (extend 0 1 c5_st0)))) 0)).components =
      [1, 1] ∧
    ([1, 1] : List Nat) ≠ [1] := by decide

/-- C5 (amended): re-extending a component already attached to this model
passes the ownership assertion and leaves the component heap, the name lookup,
the marginalization map, the variational-model cache and (pointwise) the
free-input map unchanged, but it is not a no-op: the component is appended to
the component list a second time. -/
theorem c5_reextend_appends_again (mid dId : Nat) (st : St) (m : JointModel)
    (d : Component)
    (hm : getModel st mid = .ok m) (hd : getComp st dId = .ok d)
    (hown : d.model = some mid)
    (hreg : ∀ pn ∈ d.inputs_random,
      (∃ nid, pn.2 = some nid ∧ nid ∈ m.components) ∨
        alistFind m.inputs_random (dId, pn.1) = some pn.2) :
    ∃ st' m', extend mid dId st = .ok st' ∧
      st'.comps = st.comps ∧ st'.nextId = st.nextId ∧
      getModel st' mid = .ok m' ∧
      m'.components = m.components ++ [dId] ∧
      m'.components_by_key = m.components_by_key ∧
      m'.marginalizations = m.marginalizations ∧
      m'.explicit_variational_model = m.explicit_variational_model ∧
      (∀ k, alistFind m'.inputs_random k = alistFind m.inputs_random k) := by
  have hfields := register_free_inputs_fields dId d.inputs_random m
  refine ⟨_, _, extend_owned_eq mid dId st m d hm hd hown, rfl, rfl,
    getModel_setModel_self _ _ _, ?_, ?_, ?_, ?_, ?_⟩
  · simp [hfields.1]
  · exact hfields.2.1
  · exact hfields.2.2.1
  · exact hfields.2.2.2.2.1
  · intro k
    exact register_free_inputs_find dId d.inputs_random m hreg k

theorem c5_witness :
    ∃ st' m', extend 0 1 (exceptSt (extend 0 1 c5_st0)) = .ok st' ∧
      st'.comps = (exceptSt (extend 0 1 c5_st0)).comps ∧
      st'.nextId = (exceptSt (extend 0 1 c5_st0)).nextId ∧
      getModel st' 0 = .ok m' ∧
      m'.components =
        (exceptJM (getModel (exceptSt (extend 0 1 c5_st0)) 0)).components
          ++ [1] ∧
      m'.components_by_key =
        (exceptJM (getModel (exceptSt (extend 0 1 c5_st0)) 0)).components_by_key ∧
      m'.marginalizations =
        (exceptJM (getModel (exceptSt (extend 0 1 c5_st0)) 0)).marginalizations ∧
      m'.explicit_variational_model =
        (exceptJM (getModel (exceptSt (extend 0 1 c5_st0))
          0)).explicit_variational_model ∧
      (∀ k, alistFind m'.inputs_random k =
        alistFind (exceptJM (getModel (exceptSt (extend 0 1 c5_st0))
          0)).inputs_random k) :=
  c5_reextend_appends_again 0 1 (exceptSt (extend 0 1 c5_st0))
    (exceptJM (getModel (exceptSt (extend 0 1 c5_st0)) 0))
    { simpleComp ("d") with model := some 0 }
    (by rfl) (by rfl) (by rfl)
    (by intro pn hpn; cases hpn)

/-- Name of a component in the heap (empty string on a dangling id). -/
def compName (st : St) (cid : Nat) : String :=
  match getComp st cid with
  | .ok c => c.name
  | .error _ => ""

/-- Concrete state with two distinct components that share the name `x`. -/
def c6_st0 : St :=
  { comps := [(1, simpleComp ("x")), (2, simpleComp ("x"))],
    models := [(0, emptyJM ("m"))], nextId := 3 }

/-- C6: `extend` never registers anything in the name lookup — after two
successful extends `_components_by_key` is still empty, and two distinct
components with the same name are both accepted without rejection or
disambiguation, violating the documented uniqueness invariant. -/
theorem c6_name_lookup_never_populated :
    compName c6_st0 1 = "x" ∧ compName c6_st0 2 = "x" ∧
    exIsOk (extend 0 1 c6_st0) = true ∧
    exIsOk (extend 0 2 (exceptSt (extend 0 1 c6_st0))) = true ∧
    (exceptJM (getModel
      (exceptSt (extend 0 2 (exceptSt (extend 0 1 c6_st0)))) 0)).components =
      [1, 2] ∧
    (exceptJM (getModel
      (exceptSt (extend 0 2 (exceptSt (extend 0 1 c6_st0))))
      0)).components_by_key = [] := by decide

/-- Concrete state for the variational-model cache claims: model 0 owns
nothing yet; components 1 and 2 are model variables, 3 and 4 their variational
distributions. -/
def c3_st0 : St :=
  { comps := [(1, simpleComp ("A")), (2, simpleComp ("B")),
              (3, simpleComp ("qA")), (4, simpleComp ("qB"))],
    models := [(0, emptyJM ("m"))], nextId := 5 }

/-- The model after extending components 1 and 2 and marginalizing 1 with 3. -/
def c3_stA : St :=
  exceptSt (marginalize 0 1 (some 3)
    (exceptSt (extend 0 2 (exceptSt (extend 0 1 c3_st0)))))

/-- The model after the first `variational_model` call (which builds and
caches the variational model, id 5) followed by marginalizing 2 with 4. -/
def c3_stB : St :=
  exceptSt (marginalize 0 2 (some 4) (exVM (variational_model 0 c3_stA)).2)

/-- The result of the second `variational_model` call. -/
def c3_final : Nat × St := exVM (variational_model 0 c3_stB)

/-- C3 counterexample: after a further `marginalize`, `variational_model()`
still returns the stale cached instance — its component list is `[3]`, while
the values of the updated marginalization map are `[3, 4]`, so the returned
model does not reflect the updated map. -/
theorem c3_counterexample :
    c3_final.1 = 5 ∧
    (exceptJM (getModel c3_final.2 5)).components = [3] ∧
    (exceptJM (getModel c3_final.2 0)).marginalizations.map Prod.snd = [3, 4] ∧
    ([3] : List Nat) ≠ [3, 4] := by decide

/-- Building loop of `variational_model`: extending a live model with a list of
components (each unowned or already owned by it) succeeds and appends exactly
those components, in order, to its component list, leaving every other model
untouched. -/
theorem vm_build_fold (vmid : Nat) :
    ∀ (l : List (Nat × Nat)) (st : St) (vm : JointModel),
      getModel st vmid = .ok vm →
      (∀ p ∈ l, ∃ c, alistFind st.comps p.2 = some c ∧
        (c.model = none ∨ c.model = some vmid)) →
      ∃ st', l.foldlM (fun s p => extend vmid p.2 s) st = .ok st' ∧
        (∃ vm', getModel st' vmid = .ok vm' ∧
          vm'.components = vm.components ++ l.map Prod.snd) ∧
        (∀ k, k ≠ vmid → alistFind st'.models k = alistFind st.models k) := by
  intro l
  induction l with
  | nil =>
    intro st vm hvm _
    exact ⟨st, by simp [List.foldlM], ⟨vm, hvm, by simp⟩, fun k _ => rfl⟩
  | cons p l ih =>
    intro st vm hvm hcomps
    obtain ⟨c, hc, hcm⟩ := hcomps p (List.mem_cons_self p l)
    have hgc : getComp st p.2 = .ok c := by simp [getComp, hc]
    have hfields := register_free_inputs_fields p.2 c.inputs_random vm
    cases hcm with
    | inl hnone =>
      have hext := extend_unowned_eq vmid p.2 st vm c hvm hgc hnone
      set st1 := setModel (setComp st p.2 { c with model := some vmid }) vmid
        { register_free_inputs p.2 c.inputs_random vm with
          components :=
            (register_free_inputs p.2 c.inputs_random vm).components ++ [p.2] }
        with hst1
      have hvm1 : getModel st1 vmid = .ok
          { register_free_inputs p.2 c.inputs_random vm with
            components :=
              (register_free_inputs p.2 c.inputs_random vm).components
                ++ [p.2] } := getModel_setModel_self _ _ _
      have hcomps1 : ∀ q ∈ l, ∃ c', alistFind st1.comps q.2 = some c' ∧
          (c'.model = none ∨ c'.model = some vmid) := by
        intro q hq
        obtain ⟨c', hc', hcm'⟩ := hcomps q (List.mem_cons_of_mem p hq)
        by_cases hqq : q.2 = p.2
        · refine ⟨{ c with model := some vmid }, ?_, Or.inr rfl⟩
          show alistFind (alistSet st.comps p.2 _) q.2 = _
          rw [hqq, alistFind_set_self]
        · refine ⟨c', ?_, hcm'⟩
          show alistFind (alistSet st.comps p.2 _) q.2 = _
          rw [alistFind_set_ne _ _ _ _ hqq]
          exact hc'
      obtain ⟨st2, hfold, ⟨vm', hvm', hvc⟩, hframe⟩ := ih st1 _ hvm1 hcomps1
      refine ⟨st2, ?_, ⟨vm', hvm', ?_⟩, ?_⟩
      · simp only [List.foldlM, hext, exBind_ok]
        exact hfold
      · rw [hvc]
        simp [hfields.1]
      · intro k hk
        rw [hframe k hk, hst1]
        show alistFind (alistSet _ vmid _) k = _
        rw [alistFind_set_ne _ _ _ _ hk]
        rfl
    | inr hown =>
      have hext := extend_owned_eq vmid p.2 st vm c hvm hgc hown
      set st1 := setModel st vmid
        { register_free_inputs p.2 c.inputs_random vm with
          components :=
            (register_free_inputs p.2 c.inputs_random vm).components ++ [p.2] }
        with hst1
      have hvm1 : getModel st1 vmid = .ok
          { register_free_inputs p.2 c.inputs_random vm with
            components :=
              (register_free_inputs p.2 c.inputs_random vm).components
                ++ [p.2] } := getModel_setModel_self _ _ _
      have hcomps1 : ∀ q ∈ l, ∃ c', alistFind st1.comps q.2 = some c' ∧
          (c'.model = none ∨ c'.model = some vmid) :=
        fun q hq => hcomps q (List.mem_cons_of_mem p hq)
      obtain ⟨st2, hfold, ⟨vm', hvm', hvc⟩, hframe⟩ := ih st1 _ hvm1 hcomps1
      refine ⟨st2, ?_, ⟨vm', hvm', ?_⟩, ?_⟩
      · simp only [List.foldlM, hext, exBind_ok]
        exact hfold
      · rw [hvc]
        simp [hfields.1]
      · intro k hk
        rw [hframe k hk, hst1]
        show alistFind (alistSet _ vmid _) k = _
        rw [alistFind_set_ne _ _ _ _ hk]

/-- C3 (amended): `variational_model()` on a model with a filled cache returns
the cached instance with the state untouched — so calling it twice with no
intervening marginalize returns the identical instance, but calling it after a
further `marginalize` also returns the stale cached instance unchanged.  Only
when no cache exists yet does it build (and then cache) a fresh model whose
components are exactly the values of the marginalization map, added via
`extend` in registration order. -/
theorem c3_variational_model_cache (mid : Nat) (st : St) (m : JointModel)
    (hm : getModel st mid = .ok m) :
    (∀ vmid, m.explicit_variational_model = some vmid →
      variational_model mid st = .ok (vmid, st)) ∧
    (m.explicit_variational_model = none → mid ≠ st.nextId →
      (∀ p ∈ m.marginalizations, ∃ c, alistFind st.comps p.2 = some c ∧
        (c.model = none ∨ c.model = some st.nextId)) →
      ∃ st' vm m', variational_model mid st = .ok (st.nextId, st') ∧
        getModel st' st.nextId = .ok vm ∧
        vm.components = m.marginalizations.map Prod.snd ∧
        getModel st' mid = .ok m' ∧
        m'.explicit_variational_model = some st.nextId ∧
        m'.marginalizations = m.marginalizations) := by
  constructor
  · intro vmid hcache
    simp [variational_model, hm, hcache]
  · intro hcache hne hcomps
    have hfresh : getModel (newJointModel none st).2 st.nextId = .ok
        { components := [], components_by_key := [], marginalizations := [],
          marginalizations_reverse := [], explicit_variational_model := none,
          inputs_random := [], inputs_nonrandom := [],
          name := uuidHex st.nextId } := by
      simp [newJointModel, getModel, alistFind_set_self]
    have hcomps' : ∀ p ∈ m.marginalizations, ∃ c,
        alistFind ((newJointModel none st).2).comps p.2 = some c ∧
        (c.model = none ∨ c.model = some st.nextId) := hcomps
    obtain ⟨st2, hfold, ⟨vm', hvm', hvc⟩, hframe⟩ :=
      vm_build_fold st.nextId m.marginalizations (newJointModel none st).2 _
        hfresh hcomps'
    have hnm : st.nextId ≠ mid := fun h => hne h.symm
    have hm2 : getModel st2 mid = .ok m := by
      have h1 : alistFind st2.models mid =
          alistFind ((newJointModel none st).2).models mid := hframe mid hne
      have h2 : alistFind ((newJointModel none st).2).models mid =
          alistFind st.models mid := by
        show alistFind (alistSet st.models st.nextId _) mid = _
        exact alistFind_set_ne _ _ _ _ hne
      simp only [getModel] at hm ⊢
      rw [h1, h2]
      exact hm
    refine ⟨setModel st2 mid
        { m with explicit_variational_model := some st.nextId },
      vm', { m with explicit_variational_model := some st.nextId },
      ?_, ?_, ?_, getModel_setModel_self _ _ _, rfl, rfl⟩
    · simp only [variational_model, hm, exBind_ok, hcache]
      simp only [newJointModel] at hfold ⊢
      rw [hfold]
      simp only [exBind_ok, hm2]
      rfl
    · rw [getModel_setModel_ne _ _ _ _ hnm]
      exact hvm'
    · rw [hvc]
      simp

theorem c3_witness :
    variational_model 0 c3_stB = .ok (5, c3_stB) ∧
    (∃ st' vm m', variational_model 0 c3_stA = .ok (c3_stA.nextId, st') ∧
      getModel st' c3_stA.nextId = .ok vm ∧
      vm.components =
        (exceptJM (getModel c3_stA 0)).marginalizations.map Prod.snd ∧
      getModel st' 0 = .ok m' ∧
      m'.explicit_variational_model = some c3_stA.nextId ∧
      m'.marginalizations = (exceptJM (getModel c3_stA 0)).marginalizations) := by
  constructor
  · exact (c3_variational_model_cache 0 c3_stB (exceptJM (getModel c3_stB 0))
      (by rfl)).1 5 (by rfl)
  · refine (c3_variational_model_cache 0 c3_stA (exceptJM (getModel c3_stA 0))
      (by rfl)).2 (by rfl) (by decide) ?_
    intro p hp
    have hl : (exceptJM (getModel c3_stA 0)).marginalizations = [(1, 3)] := by
      decide
    rw [hl] at hp
    simp at hp
    subst hp
    exact ⟨simpleComp ("qA"), by rfl, Or.inl rfl⟩

/-- The keyword-building loop of `_entropy_lower_bound` succeeds and computes
the spec-side dictionary when every random input is attached and live. -/
theorem entropy_kwfold (st : St) :
    ∀ (l : List (String × Option Nat)) (f : String → Option Val),
      (∀ pn ∈ l, ∃ nid src, pn.2 = some nid ∧
        alistFind st.comps nid = some src) →
      (l.foldlM
        (fun (f : String → Option Val) (pn : String × Option Nat) => do
          match pn.2 with
          | none => Except.error .attributeError
          | some nid => do
            let srcC ← getComp st nid
            pure (kwSet f pn.1 srcC.sampled))
        f : Except Err (String → Option Val)) =
      .ok (l.foldl
        (fun f pn =>
          match pn.2.bind (fun nid => alistFind st.comps nid) with
          | none => f
          | some src => kwSet f pn.1 src.sampled)
        f) := by
  intro l
  induction l with
  | nil => intro f _; simp [List.foldlM]
  | cons pn l ih =>
    intro f h
    obtain ⟨nid, src, hpn, hsrc⟩ := h pn (List.mem_cons_self pn l)
    have hgc : getComp st nid = .ok src := by simp [getComp, hsrc]
    have hstep1 : (do
        match pn.2 with
        | none => Except.error .attributeError
        | some nid => do
          let srcC ← getComp st nid
          pure (kwSet f pn.1 srcC.sampled) : Except Err (String → Option Val))
        = .ok (kwSet f pn.1 src.sampled) := by
      rw [hpn]
      simp [hgc]
    have hstep2 : (match pn.2.bind (fun nid => alistFind st.comps nid) with
        | none => f
        | some src => kwSet f pn.1 src.sampled) = kwSet f pn.1 src.sampled := by
      rw [hpn]
      simp [hsrc]
    simp only [List.foldlM, List.foldl_cons, hstep1, exBind_ok, hstep2]
    exact ih _ (fun q hq => h q (List.mem_cons_of_mem pn hq))

/-- One entropy term evaluates to the spec-side formula when the component is
live and its random inputs are attached and live. -/
theorem entropy_term_eq (st : St) (cid : Nat) (c : Component)
    (hc : getComp st cid = .ok c)
    (hin : ∀ pn ∈ c.inputs_random, ∃ nid src, pn.2 = some nid ∧
      alistFind st.comps nid = some src) :
    entropy_term st cid = .ok (claimed_entropy_term st c) := by
  simp only [entropy_term, hc, exBind_ok]
  rw [entropy_kwfold st c.inputs_random kwEmpty hin]
  simp only [exBind_ok]
  rfl

/-- C7: for every variational model whose components and their random-input
suppliers are live, `_entropy_lower_bound` returns the sum over its components
of each component's parameterized entropy lower bound evaluated on that
component's random-input sampled values; in particular, for a model with
exactly two components the joint entropy lower bound equals the sum of the two
individual entropy terms (mean-field additivity). -/
theorem c7_entropy_mean_field (mid : Nat) (st : St) (m : JointModel)
    (compF : Nat → Component)
    (hm : getModel st mid = .ok m)
    (hc : ∀ cid ∈ m.components, getComp st cid = .ok (compF cid))
    (hin : ∀ cid ∈ m.components, ∀ pn ∈ (compF cid).inputs_random,
      ∃ nid src, pn.2 = some nid ∧ alistFind st.comps nid = some src) :
    (entropy_lower_bound mid st =
      .ok ((m.components.map
        (fun cid => claimed_entropy_term st (compF cid))).sum)) ∧
    (∀ a b, m.components = [a, b] →
      entropy_lower_bound mid st =
        .ok (claimed_entropy_term st (compF a) +
          claimed_entropy_term st (compF b))) := by
  have hterm : ∀ cid ∈ m.components,
      entropy_term st cid = .ok (claimed_entropy_term st (compF cid)) :=
    fun cid hcid => entropy_term_eq st cid (compF cid) (hc cid hcid)
      (hin cid hcid)
  have hmain : entropy_lower_bound mid st =
      .ok ((m.components.map
        (fun cid => claimed_entropy_term st (compF cid))).sum) := by
    simp only [entropy_lower_bound, topo_sorted, hm, exBind_ok]
    rw [foldlM_app_ok (entropy_term st)
      (fun cid => claimed_entropy_term st (compF cid)) m.components hterm []]
    simp
  refine ⟨hmain, ?_⟩
  intro a b hab
  rw [hmain, hab]
  simp

/-- Variational component with constant entropy term 5. -/
def c7_comp1 : Component :=
  { simpleComp ("qA") with parameterized_entropy_lower_bound := fun _ => 5 }

/-- Variational component with constant entropy term 9. -/
def c7_comp2 : Component :=
  { simpleComp ("qB") with parameterized_entropy_lower_bound := fun _ => 9 }

/-- Concrete two-component variational model for the entropy claim. -/
def c7_st : St :=
  { comps := [(11, c7_comp1), (12, c7_comp2)],
    models := [(7, { emptyJM ("vm") with components := [11, 12] })],
    nextId := 13 }

theorem c7_witness :
    (entropy_lower_bound 7 c7_st =
      .ok ((({ emptyJM ("vm") with components := [11, 12] }
        : JointModel).components.map
        (fun cid => claimed_entropy_term c7_st
          (if cid = 11 then c7_comp1 else c7_comp2))).sum)) ∧
    (∀ a b, ({ emptyJM ("vm") with components := [11, 12] }
        : JointModel).components = [a, b] →
      entropy_lower_bound 7 c7_st =
        .ok (claimed_entropy_term c7_st
            (if a = 11 then c7_comp1 else c7_comp2) +
          claimed_entropy_term c7_st
            (if b = 11 then c7_comp1 else c7_comp2))) :=
  c7_entropy_mean_field 7 c7_st
    ({ emptyJM ("vm") with components := [11, 12] })
    (fun cid => if cid = 11 then c7_comp1 else c7_comp2)
    (by rfl)
    (by intro cid hcid; fin_cases hcid <;> rfl)
    (by
      intro cid hcid pn hpn
      fin_cases hcid <;>
        simp [c7_comp1, c7_comp2, simpleComp] at hpn)

/-- Helper: model lookup only depends on the model heap. -/
theorem getModel_models_eq (st st' : St) (mid : Nat)
    (h : alistFind st'.models mid = alistFind st.models mid) :
    getModel st' mid = getModel st mid := by
  simp only [getModel, h]

/-- With no marginalizations and no cache, `variational_model` builds and
caches a fresh empty model. -/
theorem variational_model_empty (mid : Nat) (st : St) (m : JointModel)
    (hm : getModel st mid = .ok m)
    (hcache : m.explicit_variational_model = none)
    (hmarg : m.marginalizations = [])
    (hne : mid ≠ st.nextId) :
    variational_model mid st = .ok (st.nextId,
      setModel (newJointModel none st).2 mid
        { m with explicit_variational_model := some st.nextId }) := by
  have hm1 : getModel (newJointModel none st).2 mid = .ok m := by
    rw [getModel_models_eq st (newJointModel none st).2 mid
      (by
        show alistFind (alistSet st.models st.nextId _) mid = _
        exact alistFind_set_ne _ _ _ _ hne)]
    exact hm
  simp only [variational_model, hm, exBind_ok, hcache, hmarg]
  simp only [newJointModel, List.foldlM, pure_bind] at hm1 ⊢
  rw [hm1]
  simp only [exBind_ok, exPure, hmarg]

/-- `_sample` succeeds on any live model whose components are all live. -/
theorem sample'_isOk (mid : Nat) (input_vals : List (String × Val)) (st : St)
    (m : JointModel) (hm : getModel st mid = .ok m)
    (hc : ∀ cid ∈ m.components, (alistFind st.comps cid).isSome = true) :
    exIsOk (sample' mid input_vals st) = true := by
  simp only [sample', hm, exBind_ok, topo_sorted]
  apply foldlM_step_ok
  intro s cid hcid
  have hsome := hc cid hcid
  cases hfind : alistFind st.comps cid with
  | none => rw [hfind] at hsome; simp at hsome
  | some c =>
    have hgc : getComp st cid = .ok c := by simp [getComp, hfind]
    simp [hgc, exIsOk]

/-- With an empty marginalization map, every `_logp` component term fails with
the `KeyError` of the component's own missing marginalization. -/
theorem logp_term_no_marg (st : St) (cid : Nat) (c : Component)
    (hc : getComp st cid = .ok c) :
    logp_term st [] cid = .error .keyError := by
  simp [logp_term, hc, alistFind_nil]

/-- C8: on every non-empty live `JointModel` with zero marginalized variables
(and no stale cache), the ELBO computation `_logp` fails with the `KeyError`
lookup error, while `_sample` and `outputs()` on the same model still succeed,
`outputs()` returning the full component list. -/
theorem c8_elbo_fails_sampling_succeeds (mid : Nat) (st : St) (m : JointModel)
    (hm : getModel st mid = .ok m)
    (hmarg : m.marginalizations = [])
    (hcache : m.explicit_variational_model = none)
    (hne : mid ≠ st.nextId)
    (hnonempty : m.components ≠ [])
    (hc : ∀ cid ∈ m.components, (alistFind st.comps cid).isSome = true) :
    logp mid st = .error .keyError ∧
    exIsOk (sample' mid [] st) = true ∧
    outputs mid st = .ok m.components := by
  have hvm := variational_model_empty mid st m hm hcache hmarg hne
  have hnm : st.nextId ≠ mid := fun h => hne h.symm
  set st1 := (newJointModel none st).2 with hst1
  set m' : JointModel := { m with explicit_variational_model := some st.nextId }
    with hm'def
  set st' := setModel st1 mid m' with hst'
  have hfreshvm : getModel st' st.nextId = .ok
      { components := [], components_by_key := [], marginalizations := [],
        marginalizations_reverse := [], explicit_variational_model := none,
        inputs_random := [], inputs_nonrandom := [],
        name := uuidHex st.nextId } := by
    rw [hst', getModel_setModel_ne _ _ _ _ hnm, hst1]
    show getModel (setModel { st with nextId := st.nextId + 1 } st.nextId _)
      st.nextId = _
    exact getModel_setModel_self _ _ _
  have hsmp : sample' st.nextId [] st' = .ok ([], []) := by
    simp [sample', hfreshvm, topo_sorted, List.foldlM]
  have hent : entropy_lower_bound st.nextId st' = .ok 0 := by
    simp [entropy_lower_bound, hfreshvm, topo_sorted, List.foldlM]
  have hm'' : getModel st' mid = .ok m' := getModel_setModel_self _ _ _
  have hcomps' : st'.comps = st.comps := rfl
  have hterm : ∀ cid ∈ m'.components, logp_term st' m'.marginalizations cid =
      .error .keyError := by
    intro cid hcid
    have hcid' : cid ∈ m.components := hcid
    have hsome := hc cid hcid'
    cases hfind : alistFind st.comps cid with
    | none => rw [hfind] at hsome; simp at hsome
    | some c =>
      have hgc : getComp st' cid = .ok c := by
        have hfind' : alistFind st'.comps cid = some c := hfind
        simp [getComp, hfind']
      have hmarg' : m'.marginalizations = [] := hmarg
      rw [hmarg']
      exact logp_term_no_marg st' cid c hgc
  have hfold : (topo_sorted m').foldlM
      (fun acc cid => do
        let expected_lp ← logp_term st' m'.marginalizations cid
        pure (acc ++ [expected_lp]))
      ([] : List Val) = .error .keyError := by
    apply foldlM_app_error
    · intro a ha e' he'
      rw [hterm a ha] at he'
      exact (Except.error.inj he').symm
    · intro hok
      rcases hx : m.components with _ | ⟨c0, cs⟩
      · exact hnonempty hx
      · have hc0 : c0 ∈ m'.components := by
          show c0 ∈ m.components
          rw [hx]; exact List.mem_cons_self c0 cs
        have := hok c0 hc0
        rw [hterm c0 hc0] at this
        simp [exIsOk] at this
  refine ⟨?_, sample'_isOk mid [] st m hm hc, ?_⟩
  · simp only [logp, hvm, exBind_ok, hsmp, hent, hm'', hfold, exBind_error]
  · simp only [outputs, hm, exBind_ok, hmarg]
    congr 1
    rw [List.filter_eq_self]
    intro a _
    simp [alistFind_nil]

/-- Concrete non-empty model with zero marginalized variables. -/
def c8_st : St :=
  { comps := [(1, simpleComp ("A"))],
    models := [(0, { emptyJM ("m") with components := [1] })], nextId := 2 }

theorem c8_witness :
    logp 0 c8_st = .error .keyError ∧
    exIsOk (sample' 0 [] c8_st) = true ∧
    outputs 0 c8_st =
      .ok ({ emptyJM ("m") with components := [1] } : JointModel).components :=
  c8_elbo_fails_sampling_succeeds 0 c8_st
    ({ emptyJM ("m") with components := [1] })
    (by rfl) (by rfl) (by rfl) (by decide) (by decide)
    (by intro cid h; fin_cases h; rfl)

/-- In a dictionary with distinct keys, looking up the key of any entry yields
that entry's value. -/
theorem alistFind_self_of_nodup {α β : Type} [DecidableEq α] :
    ∀ (l : List (α × β)), (l.map Prod.fst).Nodup →
      ∀ pn ∈ l, alistFind l pn.1 = some pn.2 := by
  intro l
  induction l with
  | nil => intro _ pn hpn; cases hpn
  | cons p l ih =>
    intro hnd pn hpn
    simp only [List.map_cons, List.nodup_cons] at hnd
    rcases List.mem_cons.mp hpn with h | h
    · subst h
      simp [alistFind_cons]
    · have hne : pn.1 ≠ p.1 := by
        intro he
        exact hnd.1 (List.mem_map.mpr ⟨pn, h, he⟩)
      rw [alistFind_cons, if_neg (fun hh => hne hh.symm)]
      exact ih hnd.2 pn h

/-- The `_logp` collection loop skips every parameter that is not a random
input. -/
theorem logp_qs_fold_none (big : List (String × Option Nat))
    (marg : List (Nat × Nat)) :
    ∀ (keys : List String) (f : String → Option Nat),
      (∀ p ∈ keys, alistFind big p = none) →
      keys.foldl
        (fun qs param =>
          match alistFind big param with
          | none => qs
          | some none => qs
          | some (some nid) =>
            match alistFind marg nid with
            | none => qs
            | some q => kwSet qs ("q_" ++ param) q)
        f = f := by
  intro keys
  induction keys with
  | nil => intro f _; rfl
  | cons p keys ih =>
    intro f h
    have hp : alistFind big p = none := h p (List.mem_cons_self p keys)
    simp only [List.foldl_cons, hp]
    exact ih f (fun q hq => h q (List.mem_cons_of_mem p hq))

/-- The `_logp` collection loop over the parameter names of a distinct-keyed
random-input dictionary computes the spec-side fold over its entries. -/
theorem logp_qs_fold_entries (big : List (String × Option Nat))
    (marg : List (Nat × Nat)) :
    ∀ (l : List (String × Option Nat)) (f : String → Option Nat),
      (∀ pn ∈ l, alistFind big pn.1 = some pn.2) →
      (l.map Prod.fst).foldl
        (fun qs param =>
          match alistFind big param with
          | none => qs
          | some none => qs
          | some (some nid) =>
            match alistFind marg nid with
            | none => qs
            | some q => kwSet qs ("q_" ++ param) q)
        f =
      l.foldl
        (fun f pn =>
          match pn.2 with
          | none => f
          | some sup =>
            match alistFind marg sup with
            | none => f
            | some q => kwSet f ("q_" ++ pn.1) q)
        f := by
  intro l
  induction l with
  | nil => intro f _; rfl
  | cons pn l ih =>
    intro f h
    have hp : alistFind big pn.1 = some pn.2 := h pn (List.mem_cons_self pn l)
    have hacc : (match alistFind big pn.1 with
        | none => f
        | some none => f
        | some (some nid) =>
          match alistFind marg nid with
          | none => f
          | some q => kwSet f ("q_" ++ pn.1) q) =
        (match pn.2 with
        | none => f
        | some sup =>
          match alistFind marg sup with
          | none => f
          | some q => kwSet f ("q_" ++ pn.1) q) := by
      rw [hp]
      cases pn.2 <;> rfl
    simp only [List.map_cons, List.foldl_cons]
    rw [hacc]
    exact ih _ (fun q hq => h q (List.mem_cons_of_mem pn hq))

/-- One `_logp` component term evaluates to the spec-side expected
log-probability under the collected variational components, provided the
component is live, its own marginalization exists, and its input dictionaries
are well-formed (distinct random keys, no parameter both random and fixed). -/
theorem logp_term_marg_eq (st : St) (marg : List (Nat × Nat)) (cid : Nat)
    (c : Component) (own : Nat)
    (hc : getComp st cid = .ok c)
    (hq : alistFind marg cid = some own)
    (hnodup : (c.inputs_random.map Prod.fst).Nodup)
    (hdisj : ∀ p ∈ c.inputs_nonrandom.map Prod.fst,
      p ∉ c.inputs_random.map Prod.fst) :
    logp_term st marg cid = .ok (claimed_elp marg c own) := by
  have hfolds : c.inputs.foldl
      (fun qs param =>
        match alistFind c.inputs_random param with
        | none => qs
        | some none => qs
        | some (some nid) =>
          match alistFind marg nid with
          | none => qs
          | some q => kwSet qs ("q_" ++ param) q)
      kwEmpty =
      c.inputs_random.foldl
        (fun f pn =>
          match pn.2 with
          | none => f
          | some sup =>
            match alistFind marg sup with
            | none => f
            | some q => kwSet f ("q_" ++ pn.1) q)
        kwEmpty := by
    have hsplit : c.inputs =
        c.inputs_random.map Prod.fst ++ c.inputs_nonrandom.map Prod.fst := rfl
    rw [hsplit, List.foldl_append]
    rw [logp_qs_fold_entries c.inputs_random marg c.inputs_random kwEmpty
      (alistFind_self_of_nodup c.inputs_random hnodup)]
    exact logp_qs_fold_none c.inputs_random marg
      (c.inputs_nonrandom.map Prod.fst) _
      (fun p hp => alistFind_eq_none_of_not_mem c.inputs_random p (hdisj p hp))
  simp only [logp_term, hc, exBind_ok, hfolds, hq]
  rfl

/-- C1: on every `JointModel` whose components all carry an attached
marginalization (with live heap entries and well-formed input dictionaries),
`_logp` returns a pair whose first element is the sum, over the components in
topological order, of each component's expected log-probability under its
collected variational components (the spec-side formula `claimed_elp`), plus
the variational model's entropy lower bound, and whose second element is the
deferred base-randomness function produced by sampling the variational
model. -/
theorem c1_logp_elbo (mid vmid : Nat) (st st1 : St) (m1 : JointModel)
    (qsample : List (SKey × Val)) (eps : List (Nat × Val)) (entH : Val)
    (compF : Nat → Component) (ownQ : Nat → Nat)
    (hvm : variational_model mid st = .ok (vmid, st1))
    (hs : sample' vmid [] st1 = .ok (qsample, eps))
    (hH : entropy_lower_bound vmid st1 = .ok entH)
    (hm : getModel st1 mid = .ok m1)
    (hc : ∀ cid ∈ m1.components, getComp st1 cid = .ok (compF cid))
    (hq : ∀ cid ∈ m1.components,
      alistFind m1.marginalizations cid = some (ownQ cid))
    (hnodup : ∀ cid ∈ m1.components,
      ((compF cid).inputs_random.map Prod.fst).Nodup)
    (hdisj : ∀ cid ∈ m1.components,
      ∀ p ∈ (compF cid).inputs_nonrandom.map Prod.fst,
        p ∉ (compF cid).inputs_random.map Prod.fst) :
    logp mid st = .ok
      (((m1.components.map (fun cid =>
          claimed_elp m1.marginalizations (compF cid) (ownQ cid))).sum + entH,
        eps), st1) := by
  have hterm : ∀ cid ∈ m1.components, logp_term st1 m1.marginalizations cid =
      .ok (claimed_elp m1.marginalizations (compF cid) (ownQ cid)) :=
    fun cid h => logp_term_marg_eq st1 m1.marginalizations cid (compF cid)
      (ownQ cid) (hc cid h) (hq cid h) (hnodup cid h) (hdisj cid h)
  simp only [logp, hvm, exBind_ok, hs, hH, hm, topo_sorted]
  rw [foldlM_app_ok (logp_term st1 m1.marginalizations)
    (fun cid => claimed_elp m1.marginalizations (compF cid) (ownQ cid))
    m1.components hterm []]
  simp

/-- Model component whose expected log-probability reports the id of the
`q_result` variational component it received. -/
def c1_A : Component :=
  { simpleComp ("A") with
    model := some 0,
    expected_logp := fun f =>
      match f ("q_result") with
      | some q => Int.ofNat q
      | none => -1 }

/-- Concrete one-component model, marginalized with component 2. -/
def c1_st0 : St :=
  { comps := [(1, c1_A), (2, simpleComp ("qA"))],
    models := [(0, { emptyJM ("m") with
      components := [1], marginalizations := [(1, 2)],
      marginalizations_reverse := [(2, 1)] })],
    nextId := 3 }

theorem c1_witness :
    logp 0 c1_st0 = .ok
      ((((exceptJM (getModel (exVM (variational_model 0 c1_st0)).2
            0)).components.map
          (fun _ => claimed_elp
            (exceptJM (getModel (exVM (variational_model 0 c1_st0)).2
              0)).marginalizations c1_A 2)).sum + 0,
        []), (exVM (variational_model 0 c1_st0)).2) :=
  c1_logp_elbo 0 3 c1_st0 (exVM (variational_model 0 c1_st0)).2
    (exceptJM (getModel (exVM (variational_model 0 c1_st0)).2 0))
    [(SKey.nameKey ("qA"), 0)] [] 0 (fun _ => c1_A) (fun _ => 2)
    (by rfl) (by rfl) (by rfl) (by rfl)
    (by
      intro cid h
      have hcomps : (exceptJM (getModel (exVM (variational_model 0 c1_st0)).2
          0)).components = [1] := by decide
      rw [hcomps] at h
      simp at h
      subst h
      rfl)
    (by
      intro cid h
      have hcomps : (exceptJM (getModel (exVM (variational_model 0 c1_st0)).2
          0)).components = [1] := by decide
      rw [hcomps] at h
      simp at h
      subst h
      rfl)
    (by intro cid _; simp [c1_A, simpleComp])
    (by intro cid _; simp [c1_A, simpleComp])

/-- A `_logp` component term on a live component succeeds exactly when the
component's own marginalization is present; failed lookups for its input
parameters never make it fail. -/
theorem logp_term_isOk_iff (st : St) (marg : List (Nat × Nat)) (cid : Nat)
    (c : Component) (hc : getComp st cid = .ok c) :
    (exIsOk (logp_term st marg cid) = true ↔
      (alistFind marg cid).isSome = true) := by
  simp only [logp_term, hc, exBind_ok]
  cases hf : alistFind marg cid <;> simp [exIsOk]

/-- The only error a `_logp` component term on a live component can raise is
the `KeyError` of its own missing marginalization. -/
theorem logp_term_err_keyError (st : St) (marg : List (Nat × Nat)) (cid : Nat)
    (c : Component) (hc : getComp st cid = .ok c) :
    ∀ e, logp_term st marg cid = .error e → e = .keyError := by
  intro e h
  simp only [logp_term, hc, exBind_ok] at h
  cases hf : alistFind marg cid with
  | none =>
    rw [hf] at h
    exact (Except.error.inj h).symm
  | some q =>
    rw [hf] at h
    exact absurd h (by simp)

/-- C10: once the variational-model phase of `_logp` has succeeded, the
per-component collection never raises for an input parameter — whether the
parameter is non-random or its upstream supplier has no marginalization, the
parameter is silently skipped — and `_logp` succeeds exactly when every
component has its own marginalization; when one is missing, the error is that
lookup's `KeyError`. -/
theorem c10_logp_skip_semantics (mid vmid : Nat) (st st1 : St)
    (m1 : JointModel) (qsample : List (SKey × Val)) (eps : List (Nat × Val))
    (entH : Val) (compF : Nat → Component)
    (hvm : variational_model mid st = .ok (vmid, st1))
    (hs : sample' vmid [] st1 = .ok (qsample, eps))
    (hH : entropy_lower_bound vmid st1 = .ok entH)
    (hm : getModel st1 mid = .ok m1)
    (hc : ∀ cid ∈ m1.components, getComp st1 cid = .ok (compF cid)) :
    (exIsOk (logp mid st) = true ↔
      ∀ cid ∈ m1.components,
        (alistFind m1.marginalizations cid).isSome = true) ∧
    ((∃ cid ∈ m1.components, alistFind m1.marginalizations cid = none) →
      logp mid st = .error .keyError) := by
  have hiff : ∀ cid ∈ m1.components,
      (exIsOk (logp_term st1 m1.marginalizations cid) = true ↔
        (alistFind m1.marginalizations cid).isSome = true) :=
    fun cid h => logp_term_isOk_iff st1 m1.marginalizations cid (compF cid)
      (hc cid h)
  have herr : ∀ cid ∈ m1.components, ∀ e,
      logp_term st1 m1.marginalizations cid = .error e → e = .keyError :=
    fun cid h => logp_term_err_keyError st1 m1.marginalizations cid (compF cid)
      (hc cid h)
  simp only [logp, hvm, exBind_ok, hs, hH, hm, topo_sorted]
  cases hfold : m1.components.foldlM
      (fun acc cid => do
        let expected_lp ← logp_term st1 m1.marginalizations cid
        pure (acc ++ [expected_lp]))
      ([] : List Val) with
  | ok lps =>
    have hallok : ∀ cid ∈ m1.components,
        exIsOk (logp_term st1 m1.marginalizations cid) = true :=
      (foldlM_app_isOk (logp_term st1 m1.marginalizations) m1.components
        []).mp (by rw [hfold]; rfl)
    refine ⟨⟨fun _ cid h => (hiff cid h).mp (hallok cid h), fun _ => ?_⟩, ?_⟩
    · simp [exIsOk]
    · rintro ⟨cid, hcid, hnone⟩
      have hsome := (hiff cid hcid).mp (hallok cid hcid)
      rw [hnone] at hsome
      simp at hsome
  | error e =>
    have hnall : ¬ ∀ cid ∈ m1.components,
        exIsOk (logp_term st1 m1.marginalizations cid) = true := by
      intro hall
      have hok := (foldlM_app_isOk (logp_term st1 m1.marginalizations)
        m1.components []).mpr hall
      rw [hfold] at hok
      simp [exIsOk] at hok
    have hkey : e = .keyError := by
      have herrf := foldlM_app_error (logp_term st1 m1.marginalizations)
        Err.keyError m1.components herr hnall []
      rw [hfold] at herrf
      exact Except.error.inj herrf
    subst hkey
    constructor
    · constructor
      · intro habs
        simp [exIsOk] at habs
      · intro hall
        exact absurd (fun cid h => (hiff cid h).mpr (hall cid h)) hnall
    · intro _
      simp

/-- Concrete two-component model where only component 1 is marginalized. -/
def c10_st0 : St :=
  { comps := [(1, simpleComp ("A")), (2, simpleComp ("B")),
              (3, simpleComp ("qA"))],
    models := [(0, { emptyJM ("m") with
      components := [1, 2], marginalizations := [(1, 3)],
      marginalizations_reverse := [(3, 1)] })],
    nextId := 4 }

theorem c10_witness :
    ((exIsOk (logp 0 c10_st0) = true ↔
      ∀ cid ∈ (exceptJM (getModel (exVM (variational_model 0 c10_st0)).2
          0)).components,
        (alistFind (exceptJM (getModel (exVM (variational_model 0 c10_st0)).2
          0)).marginalizations cid).isSome = true) ∧
     ((∃ cid ∈ (exceptJM (getModel (exVM (variational_model 0 c10_st0)).2
          0)).components,
        alistFind (exceptJM (getModel (exVM (variational_model 0 c10_st0)).2
          0)).marginalizations cid = none) →
      logp 0 c10_st0 = .error .keyError)) :=
  c10_logp_skip_semantics 0 4 c10_st0 (exVM (variational_model 0 c10_st0)).2
    (exceptJM (getModel (exVM (variational_model 0 c10_st0)).2 0))
    [(SKey.nameKey ("qA"), 0)] [] 0
    (fun cid => if cid = 1 then simpleComp ("A") else simpleComp ("B"))
    (by rfl) (by rfl) (by rfl) (by rfl)
    (by
      intro cid h
      have hcomps : (exceptJM (getModel (exVM (variational_model 0 c10_st0)).2
          0)).components = [1, 2] := by decide
      rw [hcomps] at h
      rcases List.mem_cons.mp h with h1 | h1
      · subst h1; rfl
      · simp at h1
        subst h1; rfl)
